import Mathlib

/-! ThreadLibrary (user_thread.cpp)

A shallow embedding of the scheduler of `user_thread.cpp` and of its nested
`Mutex`, followed by theorems about them.

Modelling decisions, all taken from the source:

* `createThread` and `exitThread` run their whole body under `libMutex`
  (`std::lock_guard`), so each is one atomic transition of the library state.
* `start()` never takes `libMutex`; its statements are therefore separate
  transitions (`startStep`) that interleave with the transitions of the other
  execution units.  `Pc` names the statement `start()` executes next.
* Every task is bound to a `std::thread` that starts at creation (line 54).
  The event `taskEnds i` is the moment the call `newThread->task()` of unit `i`
  ends and the wrapper goes on (lines 55-56).
* Undefined behaviour is a fault, never a value: dereferencing the null
  `shared_ptr` that `threads[k]` default-inserts for a missing key, and signed
  overflow of `threadIdCounter++`.
-/

namespace UserThread

/-- Constant `MAX_THREADS` (line 12). -/
def MAX_THREADS : Nat := 128

/-- Largest value of the C++ type `int` (32 bit). -/
def INT_MAX : Int := 2147483647

/-- Enumeration `ThreadState` (line 14). -/
inductive ThreadState
  | READY
  | RUNNING
  | TERMINATED
  deriving DecidableEq, Repr

/-- How the call `task()` of a `std::function<void()>` ends: by returning or by
throwing.  A task that never ends is a unit for which no `taskEnds` event occurs. -/
inductive Task
  | returns
  | throws
  deriving DecidableEq, Repr

/-- Status of the member `std::thread threadObj`: the bound unit is still
executing its wrapper, has left it, or has been joined (`joinable()` is false
exactly for `joined`). -/
inductive ThreadObj
  | running
  | finished
  | joined
  deriving DecidableEq, Repr

/-- Thread control block, `struct Thread` (lines 17-22). -/
structure Thread where
  id : Int
  state : ThreadState
  threadObj : ThreadObj
  task : Task
  deriving DecidableEq, Repr

/-- The member `threads`, a `std::unordered_map<int, std::shared_ptr<Thread>>`,
as an association list.  Entries are never null: a null entry exists only
between `operator[]` and the dereference that follows it, which is a fault. -/
abbrev Table := List (Int × Thread)

/-- Lookup of key `k` (the read half of `threads[k]`). -/
def tableFind (t : Table) (k : Int) : Option Thread :=
  match t with
  | [] => none
  | e :: r => if e.1 = k then some e.2 else tableFind r k

/-- Assignment `threads[k] = v`: replaces the entry of `k`, or adds one. -/
def tableAssign (t : Table) (k : Int) (v : Thread) : Table :=
  match t with
  | [] => [(k, v)]
  | e :: r => if e.1 = k then (k, v) :: r else e :: tableAssign r k v

/-- Removal `threads.erase(k)`. -/
def tableErase (t : Table) (k : Int) : Table :=
  t.filter (fun e => decide (e.1 ≠ k))

/-- Write through the pointer stored under key `k` (`thread->field = ...`). -/
def tableUpdate (t : Table) (k : Int) (f : Thread → Thread) : Table :=
  t.map (fun e => if e.1 = k then (e.1, f e.2) else e)

/-- Keys of the table. -/
def tableKeys (t : Table) : List Int := t.map Prod.fst

/-- Ways an execution stops being an execution of the program. -/
inductive Err
  /-- Key `k` was missing: `threads[k]` inserted a null `shared_ptr` under `k`
  and the following `->state` dereferenced it. -/
  | nullDeref (k : Int)
  /-- Signed overflow of `threadIdCounter++`. -/
  | intOverflow
  /-- An exception left the thread function: `std::terminate`. -/
  | terminate
  /-- The event cannot happen in this state (for instance `join()` blocks). -/
  | notEnabled
  deriving DecidableEq, Repr

/-- Data members of `class ThreadLibrary` (lines 26-29). -/
structure ThreadLibrary where
  threadIdCounter : Int
  threads : Table
  readyQueue : List Int
  currentThreadId : Int
  deriving DecidableEq, Repr

namespace ThreadLibrary

/-- Constructor (line 36). -/
def init : ThreadLibrary :=
  { threadIdCounter := 0, threads := [], readyQueue := [], currentThreadId := -1 }

/-- Method `createThread` (lines 39-64): the returned `int` and the new state. -/
def createThread (s : ThreadLibrary) (task : Task) : Except Err (Int × ThreadLibrary) :=
  if MAX_THREADS ≤ s.threads.length then
    .ok (-1, s)
  else if INT_MAX ≤ s.threadIdCounter then
    .error .intOverflow
  else
    let newThread : Thread :=
      { id := s.threadIdCounter, state := .READY, threadObj := .running, task := task }
    .ok (newThread.id,
      { s with
        threadIdCounter := s.threadIdCounter + 1
        threads := tableAssign s.threads newThread.id newThread
        readyQueue := s.readyQueue ++ [newThread.id] })

/-- Method `exitThread` (lines 91-96). -/
def exitThread (s : ThreadLibrary) : Except Err ThreadLibrary :=
  match tableFind s.threads s.currentThreadId with
  | none => .error (.nullDeref s.currentThreadId)
  | some _ =>
    .ok { s with
      threads := tableUpdate s.threads s.currentThreadId
        (fun th => { th with state := .TERMINATED }) }

/-- The lambda bound to each execution unit (lines 54-57):
`newThread->task(); exitThread();`.  There is no handler around the call of
the task, so an exception leaves the thread function before line 56. -/
def threadWrapper (task : Task) (s : ThreadLibrary) : Except Err ThreadLibrary :=
  match task with
  | .returns => s.exitThread
  | .throws => .error .terminate

end ThreadLibrary

/-- The statement of `start()` that its caller executes next. -/
inductive Pc
  /-- No call of `start()` is in progress. -/
  | idle
  /-- Line 68: the loop test, then lines 69-70. -/
  | loop
  /-- Lines 72-75: `threads[currentThreadId]` and the `TERMINATED` test. -/
  | lookup
  /-- Line 77: `thread->state = RUNNING`. -/
  | setRunning
  /-- Lines 80-82: `joinable()` and `join()`. -/
  | join
  /-- Lines 84-86: the second `TERMINATED` test and `threads.erase`. -/
  | reap
  deriving DecidableEq, Repr

/-- One call of `createThread` as seen by its caller: whether the capacity
branch (line 42) was taken, and the value returned. -/
structure CreateCall where
  full : Bool
  ret : Int
  deriving DecidableEq, Repr

/-- The library together with the control point of `start()` and two
histories that the program does not store: the calls of `createThread` so far
and the values assigned to `currentThreadId` at line 69. -/
structure Sys where
  lib : ThreadLibrary
  pc : Pc
  calls : List CreateCall
  admitted : List Int
  deriving DecidableEq, Repr

/-- Atomic transitions of the system. -/
inductive Event
  /-- A call of `createThread(task)`. -/
  | createThread (task : Task)
  /-- The call `task()` of unit `i` ends and its wrapper goes on. -/
  | taskEnds (i : Int)
  /-- A direct call of the public method `exitThread()`. -/
  | exitThread
  /-- A call of `start()` begins. -/
  | startCall
  /-- The caller of `start()` executes its next statement. -/
  | startStep
  deriving DecidableEq, Repr

namespace Sys

/-- State after construction of the library. -/
def init : Sys :=
  { lib := ThreadLibrary.init, pc := .idle, calls := [], admitted := [] }

/-- Next statement of `start()` (lines 67-88).  After line 72 the local
`thread` is a copy of the pointer stored under `currentThreadId`; that entry is
not erased or replaced by anyone else while `start()` is between lines 72 and
86, so `thread->...` is written as an access to that entry.  At the join and at
lines 84-86 the entry is always there (`start_lookups_find_entry`), so the
branch for a missing entry at these two points is never taken. -/
def startStep (s : Sys) : Except Err Sys :=
  match s.pc with
  | .idle => .error .notEnabled
  | .loop =>
    match s.lib.readyQueue with
    | [] => .ok { s with pc := .idle }
    | i :: q =>
      .ok { s with
        lib := { s.lib with currentThreadId := i, readyQueue := q }
        pc := .lookup
        admitted := s.admitted ++ [i] }
  | .lookup =>
    match tableFind s.lib.threads s.lib.currentThreadId with
    | none => .error (.nullDeref s.lib.currentThreadId)
    | some th =>
      if th.state = .TERMINATED then .ok { s with pc := .loop }
      else .ok { s with pc := .setRunning }
  | .setRunning =>
    .ok { s with
      lib := { s.lib with
        threads := tableUpdate s.lib.threads s.lib.currentThreadId
          (fun th => { th with state := .RUNNING }) }
      pc := .join }
  | .join =>
    match tableFind s.lib.threads s.lib.currentThreadId with
    | none => .error .notEnabled
    | some th =>
      match th.threadObj with
      | .running => .error .notEnabled
      | .finished =>
        .ok { s with
          lib := { s.lib with
            threads := tableUpdate s.lib.threads s.lib.currentThreadId
              (fun t => { t with threadObj := .joined }) }
          pc := .reap }
      | .joined => .ok { s with pc := .reap }
  | .reap =>
    match tableFind s.lib.threads s.lib.currentThreadId with
    | none => .error .notEnabled
    | some th =>
      if th.state = .TERMINATED then
        .ok { s with
          lib := { s.lib with threads := tableErase s.lib.threads s.lib.currentThreadId }
          pc := .loop }
      else .ok { s with pc := .loop }

/-- One transition. -/
def step (s : Sys) (e : Event) : Except Err Sys :=
  match e with
  | .createThread task =>
    match s.lib.createThread task with
    | .error err => .error err
    | .ok (r, lib1) =>
      .ok { s with
        lib := lib1
        calls := s.calls ++ [{ full := decide (MAX_THREADS ≤ s.lib.threads.length), ret := r }] }
  | .taskEnds i =>
    match tableFind s.lib.threads i with
    | none => .error .notEnabled
    | some th =>
      if th.threadObj = .running then
        match ThreadLibrary.threadWrapper th.task s.lib with
        | .error err => .error err
        | .ok lib1 =>
          .ok { s with
            lib := { lib1 with
              threads := tableUpdate lib1.threads i
                (fun t => { t with threadObj := .finished }) } }
      else .error .notEnabled
  | .exitThread =>
    match s.lib.exitThread with
    | .error err => .error err
    | .ok lib1 => .ok { s with lib := lib1 }
  | .startCall =>
    match s.pc with
    | .idle => .ok { s with pc := .loop }
    | _ => .error .notEnabled
  | .startStep => s.startStep

/-- Execution of a sequence of transitions; it stops at the first fault. -/
def exec (s : Sys) (tr : List Event) : Except Err Sys :=
  match tr with
  | [] => .ok s
  | e :: r =>
    match s.step e with
    | .error err => .error err
    | .ok s1 => exec s1 r

end Sys

/-- Ids returned by the calls of `createThread` that did not take the
capacity branch, in call order. -/
def issuedIds (calls : List CreateCall) : List Int :=
  (calls.filter (fun c => !c.full)).map CreateCall.ret

/-- The list `0, 1, ..., n-1` of `int` values. -/
def idsUpTo (n : Nat) : List Int := (List.range n).map Int.ofNat

/-- State of a TCB in a table, when it is there. -/
def stateOf (t : Table) (k : Int) : Option ThreadState :=
  (tableFind t k).map Thread.state

/-- Control block built by `createThread` (lines 48-51, 54). -/
def newTCB (i : Int) (task : Task) : Thread :=
  { id := i, state := .READY, threadObj := .running, task := task }

/-- Table holding one freshly created control block per pair. -/
def freshTable (ps : List (Int × Task)) : Table :=
  ps.map (fun p => (p.1, newTCB p.1 p.2))

/-- State reached from construction by creating the tasks `ts`, none reaped. -/
def createdState (ts : List Task) : Sys :=
  { lib :=
      { threadIdCounter := ts.length
        threads := freshTable ((idsUpTo ts.length).zip ts)
        readyQueue := idsUpTo ts.length
        currentThreadId := -1 }
    pc := .idle
    calls := (idsUpTo ts.length).map (fun i => { full := false, ret := i })
    admitted := [] }

/-- Transitions of one admission during which the task of unit `i` ends while
`i` is the current id and after line 77: lines 68-70, lines 72-75, line 77,
then the task ends, then `join()` and lines 84-86. -/
def admitAndEnd (i : Int) : List Event :=
  [.startStep, .startStep, .startStep, .taskEnds i, .startStep, .startStep]

/-- The admissions `admitAndEnd` of the given ids, one after the other. -/
def admitAll : List Int → List Event
  | [] => []
  | i :: r => admitAndEnd i ++ admitAll r

/-- Schedule of a whole run: create `n` returning tasks, call `start()`, let
every task end during its own admission, and let `start()` find the queue empty. -/
def serialRun (n : Nat) : List Event :=
  (List.replicate n Task.returns).map Event.createThread
    ++ Event.startCall :: (admitAll (idsUpTo n) ++ [Event.startStep])

/-- Events of a run of `start()` in which the only other transitions are tasks
that end during their own admission: `taskEnds i` happens only while `start()`
waits at the `join()` of `i`, that is with `currentThreadId = i`, after line 77
and before the `join()` of `i` returns. -/
def timed (s : Sys) : Event → Bool
  | .startStep => true
  | .taskEnds i => decide (s.pc = Pc.join ∧ s.lib.currentThreadId = i)
  | _ => false

/-- Every event of the schedule is `timed` in the state in which it happens. -/
def wellTimed (s : Sys) : List Event → Bool
  | [] => true
  | e :: r =>
    timed s e &&
      match s.step e with
      | .ok s1 => wellTimed s1 r
      | .error _ => true

/-- Shape of the library during a run of `start()` whose schedule is
`wellTimed`: the queued ids are distinct, their control blocks are as created,
and the table holds besides them only the block of the id being admitted. -/
def SerialInv (s : Sys) : Prop :=
  ∃ ps : List (Int × Task), (ps.map Prod.fst).Nodup ∧ s.lib.readyQueue = ps.map Prod.fst ∧
    match s.pc with
    | .idle => ps = [] ∧ s.lib.threads = []
    | .loop => s.lib.threads = freshTable ps
    | .lookup =>
      s.lib.currentThreadId ∉ ps.map Prod.fst ∧
        ∃ t, s.lib.threads = (s.lib.currentThreadId, newTCB s.lib.currentThreadId t) :: freshTable ps
    | .setRunning =>
      s.lib.currentThreadId ∉ ps.map Prod.fst ∧
        ∃ t, s.lib.threads = (s.lib.currentThreadId, newTCB s.lib.currentThreadId t) :: freshTable ps
    | .join =>
      s.lib.currentThreadId ∉ ps.map Prod.fst ∧
        ∃ t, s.lib.threads =
            (s.lib.currentThreadId,
              { id := s.lib.currentThreadId, state := .RUNNING, threadObj := .running, task := t })
              :: freshTable ps ∨
          s.lib.threads =
            (s.lib.currentThreadId,
              { id := s.lib.currentThreadId, state := .TERMINATED, threadObj := .finished,
                task := t }) :: freshTable ps
    | .reap =>
      s.lib.currentThreadId ∉ ps.map Prod.fst ∧
        ∃ t, s.lib.threads =
          (s.lib.currentThreadId,
            { id := s.lib.currentThreadId, state := .TERMINATED, threadObj := .joined, task := t })
            :: freshTable ps

/-- Invariant of every execution: the counter is the number of ids issued, the
ids issued are `0, 1, ...` in call order, a call on the capacity branch returns
the sentinel, and the ids admitted so far followed by the ready queue are the
ids issued. -/
structure Inv (s : Sys) : Prop where
  counter_nonneg : 0 ≤ s.lib.threadIdCounter
  issued : issuedIds s.calls = idsUpTo s.lib.threadIdCounter.toNat
  sentinel : ∀ c ∈ s.calls, c.full = true → c.ret = -1
  fifo : s.admitted ++ s.lib.readyQueue = issuedIds s.calls

/-- Invariant of every execution relating the queue and the table: queued ids
are distinct, below the counter, different from the current id, and have a
table entry; while `start()` is between lines 72 and 86 the current id has a
table entry; and every key of the table is below the counter. -/
structure TableInv (s : Sys) : Prop where
  queue_nodup : s.lib.readyQueue.Nodup
  queue_lt : ∀ i ∈ s.lib.readyQueue, i < s.lib.threadIdCounter
  cur_lt : s.lib.currentThreadId < s.lib.threadIdCounter
  cur_not_queued : s.lib.currentThreadId ∉ s.lib.readyQueue
  queued_present : ∀ i ∈ s.lib.readyQueue, (tableFind s.lib.threads i).isSome = true
  cur_present : s.pc ≠ Pc.idle → s.pc ≠ Pc.loop →
    (tableFind s.lib.threads s.lib.currentThreadId).isSome = true
  present_lt : ∀ j, (tableFind s.lib.threads j).isSome = true → j < s.lib.threadIdCounter

/-- Nested class `Mutex` (lines 99-121): the flag `locked`.  The members `cv`
and `mtx` only make the test and the assignment of the flag one atomic step and
let a waiting caller sleep; they carry no other state. -/
structure Mutex where
  locked : Bool
  deriving DecidableEq, Repr

namespace Mutex

/-- Constructor (line 106). -/
def init : Mutex := { locked := false }

/-- Method `lock` (lines 108-114): under `mtx` the caller leaves the loop only
when `locked` is false and then sets it; while `locked` is true it waits
(`none`: the call has not returned). -/
def lock (m : Mutex) : Option Mutex :=
  if m.locked then none else some { m with locked := true }

/-- Method `unlock` (lines 116-120). -/
def unlock (m : Mutex) : Mutex :=
  { m with locked := false }

end Mutex

/-- One `Mutex` and the contexts that are between the return of their `lock()`
and their call of `unlock()`. -/
structure MutexSys where
  mutex : Mutex
  inside : List Nat
  deriving DecidableEq, Repr

/-- Transitions of the contexts using the mutex. -/
inductive MutexEvent
  /-- The call `lock()` of context `c` returns. -/
  | lockReturns (c : Nat)
  /-- Context `c` calls `unlock()`. -/
  | unlockCalled (c : Nat)
  deriving DecidableEq, Repr

namespace MutexSys

/-- A fresh mutex, no context in its critical section. -/
def init : MutexSys := { mutex := Mutex.init, inside := [] }

/-- One transition; `none` when it cannot happen: `lock()` has not returned
because the flag is set, or a context calls `unlock()` without a `lock()` of its
own before it (contexts pair each `lock()` with a later `unlock()`). -/
def step (s : MutexSys) : MutexEvent → Option MutexSys
  | .lockReturns c =>
    match s.mutex.lock with
    | none => none
    | some m => some { mutex := m, inside := c :: s.inside }
  | .unlockCalled c =>
    if c ∈ s.inside then some { mutex := s.mutex.unlock, inside := s.inside.erase c }
    else none

/-- Execution of an interleaving. -/
def exec (s : MutexSys) : List MutexEvent → Option MutexSys
  | [] => some s
  | e :: r =>
    match s.step e with
    | none => none
    | some s1 => exec s1 r

end MutexSys

/-! ## Creation from the constructed state -/

open Sys

theorem exec_append (s : Sys) (a b : List Event) :
    s.exec (a ++ b) = (match s.exec a with
      | .error err => .error err
      | .ok s1 => s1.exec b) := by
  induction a generalizing s with
  | nil => simp [exec]
  | cons e r ih =>
    simp only [List.cons_append, exec]
    cases h : s.step e with
    | error err => simp
    | ok s1 => simpa using ih s1

theorem tableAssign_fresh (t : Table) (k : Int) (v : Thread) (h : k ∉ tableKeys t) :
    tableAssign t k v = t ++ [(k, v)] := by
  induction t with
  | nil => rfl
  | cons e r ih =>
    simp only [tableKeys, List.map_cons, List.mem_cons, not_or] at h
    have h1 : e.1 ≠ k := fun hh => h.1 hh.symm
    simp only [tableAssign, h1, if_false, List.cons_append]
    rw [ih h.2]

theorem idsUpTo_length (n : Nat) : (idsUpTo n).length = n := by
  simp [idsUpTo]

theorem idsUpTo_succ (n : Nat) : idsUpTo (n + 1) = idsUpTo n ++ [(n : Int)] := by
  simp [idsUpTo, List.range_succ]

theorem mem_idsUpTo (n : Nat) (k : Int) : k ∈ idsUpTo n ↔ 0 ≤ k ∧ k < n := by
  simp only [idsUpTo, List.mem_map, List.mem_range]
  constructor
  · rintro ⟨a, ha, rfl⟩
    exact ⟨Int.ofNat_nonneg a, Int.ofNat_lt.mpr ha⟩
  · rintro ⟨h0, h1⟩
    refine ⟨k.toNat, ?_, ?_⟩
    · omega
    · simp [Int.toNat_of_nonneg h0]

theorem freshTable_length (ps : List (Int × Task)) : (freshTable ps).length = ps.length := by
  simp [freshTable]

theorem freshTable_keys (ps : List (Int × Task)) : tableKeys (freshTable ps) = ps.map Prod.fst := by
  simp [freshTable, tableKeys, Function.comp_def]

theorem freshTable_append (ps qs : List (Int × Task)) :
    freshTable (ps ++ qs) = freshTable ps ++ freshTable qs := by
  simp [freshTable]

theorem zip_ids_fst (ts : List Task) :
    ((idsUpTo ts.length).zip ts).map Prod.fst = idsUpTo ts.length := by
  rw [List.map_fst_zip]
  simp [idsUpTo_length]

theorem createdState_snoc (ts : List Task) (t : Task) (h : ts.length < MAX_THREADS) :
    (createdState ts).step (.createThread t) = .ok (createdState (ts ++ [t])) := by
  have hlen : (freshTable ((idsUpTo ts.length).zip ts)).length = ts.length := by
    simp [freshTable_length, idsUpTo_length]
  have hfresh : (ts.length : Int) ∉ tableKeys (freshTable ((idsUpTo ts.length).zip ts)) := by
    rw [freshTable_keys, zip_ids_fst, mem_idsUpTo]
    omega
  have hmax : ¬ MAX_THREADS ≤ ts.length := by omega
  have hint : ¬ INT_MAX ≤ (ts.length : Int) := by
    simp only [MAX_THREADS] at h
    simp only [INT_MAX]
    omega
  have hzip : (idsUpTo (ts.length + 1)).zip (ts ++ [t])
      = (idsUpTo ts.length).zip ts ++ [((ts.length : Int), t)] := by
    rw [idsUpTo_succ, List.zip_append (by simp [idsUpTo_length])]
    rfl
  simp only [step, createdState, ThreadLibrary.createThread, hlen, hmax, hint, if_false,
    decide_False, tableAssign_fresh _ _ _ hfresh, List.length_append, List.length_singleton,
    hzip, freshTable_append]
  simp [freshTable, newTCB, idsUpTo_succ]

theorem exec_creates (ts : List Task) (h : ts.length ≤ MAX_THREADS) :
    Sys.init.exec (ts.map Event.createThread) = .ok (createdState ts) := by
  induction ts using List.reverseRecOn with
  | nil => rfl
  | append_singleton ts t ih =>
    have hl : ts.length < MAX_THREADS := by
      simp only [List.length_append, List.length_singleton] at h
      omega
    rw [List.map_append, exec_append, ih (Nat.le_of_lt hl)]
    simp only [List.map_cons, List.map_nil, exec, createdState_snoc ts t hl]

/-! ## Fields that only `createThread` and line 69 touch -/

theorem exitThread_frame (s s1 : ThreadLibrary) (h : s.exitThread = .ok s1) :
    s1.threadIdCounter = s.threadIdCounter ∧ s1.readyQueue = s.readyQueue ∧
      s1.currentThreadId = s.currentThreadId := by
  unfold ThreadLibrary.exitThread at h
  split at h
  · cases h
  · cases h
    exact ⟨rfl, rfl, rfl⟩

theorem threadWrapper_frame (t : Task) (s s1 : ThreadLibrary)
    (h : ThreadLibrary.threadWrapper t s = .ok s1) :
    s1.threadIdCounter = s.threadIdCounter ∧ s1.readyQueue = s.readyQueue ∧
      s1.currentThreadId = s.currentThreadId := by
  cases t with
  | returns => exact exitThread_frame s s1 h
  | throws => cases h

theorem startStep_frame (s s1 : Sys) (h : s.startStep = .ok s1) :
    s1.calls = s.calls ∧ s1.lib.threadIdCounter = s.lib.threadIdCounter ∧
      s1.admitted ++ s1.lib.readyQueue = s.admitted ++ s.lib.readyQueue := by
  unfold Sys.startStep at h
  split at h
  · cases h
  · split at h
    · cases h
      simp_all
    · cases h
      simp_all
  · split at h
    · cases h
    · split at h <;> (cases h; exact ⟨rfl, rfl, rfl⟩)
  · cases h
    exact ⟨rfl, rfl, rfl⟩
  · split at h
    · cases h
    · split at h
      · cases h
      · cases h
        exact ⟨rfl, rfl, rfl⟩
      · cases h
        exact ⟨rfl, rfl, rfl⟩
  · split at h
    · cases h
    · split at h <;> (cases h; exact ⟨rfl, rfl, rfl⟩)

theorem issuedIds_snoc (calls : List CreateCall) (c : CreateCall) :
    issuedIds (calls ++ [c]) = if c.full then issuedIds calls else issuedIds calls ++ [c.ret] := by
  unfold issuedIds
  cases hc : c.full <;> simp [List.filter_append, hc]

theorem inv_init : Inv Sys.init where
  counter_nonneg := by decide
  issued := rfl
  sentinel := by
    intro c hc
    cases hc
  fifo := rfl

theorem inv_step (s s1 : Sys) (e : Event) (hinv : Inv s) (h : s.step e = .ok s1) : Inv s1 := by
  obtain ⟨h0, hi, hs, hf⟩ := hinv
  cases e with
  | createThread task =>
    simp only [Sys.step, ThreadLibrary.createThread] at h
    by_cases hfull : MAX_THREADS ≤ s.lib.threads.length
    · simp only [hfull, if_true, decide_True] at h
      cases h
      refine ⟨h0, ?_, ?_, ?_⟩
      · simpa [issuedIds_snoc] using hi
      · intro c hc _
        rcases List.mem_append.mp hc with hc | hc
        · exact hs c hc (by assumption)
        · simp only [List.mem_singleton] at hc
          rw [hc]
      · simpa [issuedIds_snoc] using hf
    · by_cases hov : INT_MAX ≤ s.lib.threadIdCounter
      · simp [hfull, hov] at h
      · simp only [hfull, hov, if_false, decide_False] at h
        cases h
        have hn : (s.lib.threadIdCounter + 1).toNat = s.lib.threadIdCounter.toNat + 1 := by omega
        have hc : ((s.lib.threadIdCounter.toNat : Nat) : Int) = s.lib.threadIdCounter :=
          Int.toNat_of_nonneg h0
        refine ⟨by show 0 ≤ s.lib.threadIdCounter + 1; omega, ?_, ?_, ?_⟩
        · show issuedIds (s.calls ++ [_]) = idsUpTo (s.lib.threadIdCounter + 1).toNat
          rw [issuedIds_snoc, hn, idsUpTo_succ, hc, hi]
          simp
        · intro c hc1 hc2
          rcases List.mem_append.mp hc1 with hc1 | hc1
          · exact hs c hc1 hc2
          · simp only [List.mem_singleton] at hc1
            rw [hc1] at hc2
            simp at hc2
        · show s.admitted ++ (s.lib.readyQueue ++ [_]) = issuedIds (s.calls ++ [_])
          rw [issuedIds_snoc, ← List.append_assoc, hf]
          simp
  | taskEnds i =>
    simp only [Sys.step] at h
    split at h
    · cases h
    · split at h
      · split at h
        · cases h
        · rename_i lib1 hw
          cases h
          obtain ⟨e1, e2, _⟩ := threadWrapper_frame _ _ _ hw
          exact ⟨by show 0 ≤ lib1.threadIdCounter; rw [e1]; exact h0,
            by show issuedIds s.calls = idsUpTo lib1.threadIdCounter.toNat; rw [e1]; exact hi,
            hs,
            by show s.admitted ++ lib1.readyQueue = _; rw [e2]; exact hf⟩
      · cases h
  | exitThread =>
    simp only [Sys.step] at h
    split at h
    · cases h
    · rename_i lib1 hw
      cases h
      obtain ⟨e1, e2, _⟩ := exitThread_frame _ _ hw
      exact ⟨by show 0 ≤ lib1.threadIdCounter; rw [e1]; exact h0,
        by show issuedIds s.calls = idsUpTo lib1.threadIdCounter.toNat; rw [e1]; exact hi,
        hs,
        by show s.admitted ++ lib1.readyQueue = _; rw [e2]; exact hf⟩
  | startCall =>
    simp only [Sys.step] at h
    split at h
    · cases h
      exact ⟨h0, hi, hs, hf⟩
    · cases h
  | startStep =>
    simp only [Sys.step] at h
    obtain ⟨e1, e2, e3⟩ := startStep_frame s s1 h
    exact ⟨by rw [e2]; exact h0, by rw [e1, e2]; exact hi, by rw [e1]; exact hs,
      by rw [e3, e1]; exact hf⟩

theorem inv_exec (tr : List Event) (s s1 : Sys) (hinv : Inv s) (h : s.exec tr = .ok s1) :
    Inv s1 := by
  induction tr generalizing s with
  | nil =>
    simp only [Sys.exec] at h
    cases h
    exact hinv
  | cons e r ih =>
    simp only [Sys.exec] at h
    cases hstep : s.step e with
    | error err => rw [hstep] at h; cases h
    | ok s2 =>
      rw [hstep] at h
      exact ih s2 (inv_step s s2 e hinv hstep) h

/-! ## Capacity and id allocation -/

theorem createThread_sentinel_iff (s : ThreadLibrary) (task : Task)
    (h0 : 0 ≤ s.threadIdCounter) :
    ((∃ s1, s.createThread task = .ok (-1, s1)) ↔ MAX_THREADS ≤ s.threads.length) ∧
      (∀ s1, s.createThread task = .ok (-1, s1) → s1 = s) := by
  unfold ThreadLibrary.createThread
  by_cases hfull : MAX_THREADS ≤ s.threads.length
  · simp only [hfull, if_true, iff_true]
    refine ⟨⟨s, rfl⟩, ?_⟩
    intro s1 h1
    cases h1
    rfl
  · simp only [hfull, if_false, iff_false]
    by_cases hov : INT_MAX ≤ s.threadIdCounter
    · simp only [hov, if_true]
      exact ⟨fun ⟨_, h1⟩ => (by cases h1), fun _ h1 => (by cases h1)⟩
    · simp only [hov, if_false]
      have hne : s.threadIdCounter ≠ -1 := by omega
      constructor
      · rintro ⟨s1, h1⟩
        injection h1 with h2
        injection h2 with h3 _
        exact hne h3
      · intro s1 h1
        injection h1 with h2
        injection h2 with h3 _
        exact absurd h3 hne

theorem idsUpTo_getElem (n k : Nat) (hk : k < (idsUpTo n).length) :
    (idsUpTo n)[k] = (k : Int) := by
  simp [idsUpTo]

theorem idsUpTo_pairwise (n : Nat) : List.Pairwise (· < ·) (idsUpTo n) := by
  unfold idsUpTo
  rw [List.pairwise_map]
  exact (List.pairwise_lt_range n).imp (fun hab => Int.ofNat_lt.mpr hab)

/-- C1: in every state the library reaches from construction, `createThread`
returns the sentinel -1 exactly when the thread table already holds at least
`MAX_THREADS` = 128 entries, and a call that returns -1 leaves the whole
library state (thread table, ready queue, id counter) as it was. -/
theorem createThread_fails_iff_full (tr : List Event) (s : Sys) (task : Task)
    (h : Sys.init.exec tr = .ok s) :
    MAX_THREADS = 128 ∧
    ((∃ lib1, s.lib.createThread task = .ok (-1, lib1)) ↔
        MAX_THREADS ≤ s.lib.threads.length) ∧
      (∀ lib1, s.lib.createThread task = .ok (-1, lib1) →
        lib1.threads = s.lib.threads ∧ lib1.readyQueue = s.lib.readyQueue ∧
          lib1.threadIdCounter = s.lib.threadIdCounter ∧ lib1 = s.lib) := by
  have hinv := inv_exec tr Sys.init s inv_init h
  obtain ⟨h1, h2⟩ := createThread_sentinel_iff s.lib task hinv.counter_nonneg
  refine ⟨rfl, h1, ?_⟩
  intro lib1 hl
  have := h2 lib1 hl
  subst this
  exact ⟨rfl, rfl, rfl, rfl⟩

theorem createThread_fails_iff_full_witness :
    Sys.init.exec [Event.createThread Task.returns] = .ok (createdState [Task.returns]) ∧
    (MAX_THREADS = 128 ∧
    ((∃ lib1, (createdState [Task.returns]).lib.createThread Task.returns = .ok (-1, lib1)) ↔
        MAX_THREADS ≤ (createdState [Task.returns]).lib.threads.length) ∧
      (∀ lib1, (createdState [Task.returns]).lib.createThread Task.returns = .ok (-1, lib1) →
        lib1.threads = (createdState [Task.returns]).lib.threads ∧
          lib1.readyQueue = (createdState [Task.returns]).lib.readyQueue ∧
          lib1.threadIdCounter = (createdState [Task.returns]).lib.threadIdCounter ∧
          lib1 = (createdState [Task.returns]).lib)) :=
  ⟨rfl, createThread_fails_iff_full [Event.createThread Task.returns]
    (createdState [Task.returns]) Task.returns rfl⟩

/-- C3: in every execution from a fresh library (any interleaving of
`createThread`, `start` and `exitThread` transitions), the ids returned by the
calls of `createThread` that did not take the capacity branch are, in call
order, `0, 1, 2, ...`: the k-th one is the non-negative id k, they are strictly
increasing, none occurs twice in the whole history (reaping does not matter),
none is the sentinel -1, and every call on the capacity branch returns -1. -/
theorem created_ids_unique_monotone (tr : List Event) (s : Sys)
    (h : Sys.init.exec tr = .ok s) :
    (∀ k (hk : k < (issuedIds s.calls).length), (issuedIds s.calls)[k] = (k : Int)) ∧
      List.Pairwise (· < ·) (issuedIds s.calls) ∧
      (issuedIds s.calls).Nodup ∧
      (∀ i ∈ issuedIds s.calls, 0 ≤ i) ∧
      (-1 : Int) ∉ issuedIds s.calls ∧
      (∀ c ∈ s.calls, c.full = true → c.ret = -1) := by
  have hinv := inv_exec tr Sys.init s inv_init h
  have hi := hinv.issued
  have hpw : List.Pairwise (· < ·) (issuedIds s.calls) := by
    rw [hi]
    exact idsUpTo_pairwise _
  have hnn : ∀ i ∈ issuedIds s.calls, 0 ≤ i := by
    intro i hmem
    rw [hi, mem_idsUpTo] at hmem
    exact hmem.1
  refine ⟨?_, hpw, ?_, hnn, ?_, hinv.sentinel⟩
  · intro k hk
    have hk2 : k < (idsUpTo s.lib.threadIdCounter.toNat).length := by
      rw [← hi]
      exact hk
    have := idsUpTo_getElem _ k hk2
    simpa [hi] using this
  · exact hpw.imp (fun hab => ne_of_lt hab)
  · intro hmem
    have := hnn _ hmem
    omega

theorem created_ids_unique_monotone_witness :
    Sys.init.exec [Event.createThread Task.returns, Event.createThread Task.throws]
        = .ok (createdState [Task.returns, Task.throws]) ∧
    ((∀ k (hk : k < (issuedIds (createdState [Task.returns, Task.throws]).calls).length),
        (issuedIds (createdState [Task.returns, Task.throws]).calls)[k] = (k : Int)) ∧
      List.Pairwise (· < ·) (issuedIds (createdState [Task.returns, Task.throws]).calls) ∧
      (issuedIds (createdState [Task.returns, Task.throws]).calls).Nodup ∧
      (∀ i ∈ issuedIds (createdState [Task.returns, Task.throws]).calls, 0 ≤ i) ∧
      (-1 : Int) ∉ issuedIds (createdState [Task.returns, Task.throws]).calls ∧
      (∀ c ∈ (createdState [Task.returns, Task.throws]).calls, c.full = true → c.ret = -1)) :=
  ⟨rfl, created_ids_unique_monotone
    [Event.createThread Task.returns, Event.createThread Task.throws]
    (createdState [Task.returns, Task.throws]) rfl⟩

/-- C10: from a fresh library, with nothing but calls of `createThread`, each
of the first `MAX_THREADS` = 128 calls succeeds (returning 0, ..., 127), the
next call takes the capacity branch and returns -1, and afterwards the thread
table holds exactly 128 entries and the ready queue exactly the 128 ids. -/
theorem capacity_boundary (ts : List Task) (t : Task) (h : ts.length = MAX_THREADS) :
    MAX_THREADS = 128 ∧
    ∃ s, Sys.init.exec (ts.map Event.createThread ++ [Event.createThread t]) = .ok s ∧
      s.calls = (idsUpTo 128).map (fun i => { full := false, ret := i })
        ++ [{ full := true, ret := -1 }] ∧
      s.lib.threads.length = 128 ∧
      tableKeys s.lib.threads = idsUpTo 128 ∧
      s.lib.readyQueue = idsUpTo 128 ∧
      s.lib.readyQueue.length = 128 := by
  have h128 : ts.length = 128 := h
  have hlen : (createdState ts).lib.threads.length = 128 := by
    simp [createdState, freshTable_length, idsUpTo_length, h128]
  have hfull : MAX_THREADS ≤ (createdState ts).lib.threads.length := by
    rw [hlen]
    exact Nat.le_refl _
  refine ⟨rfl, { (createdState ts) with
      calls := (createdState ts).calls ++ [{ full := true, ret := -1 }] }, ?_, ?_, hlen, ?_, ?_, ?_⟩
  · rw [exec_append, exec_creates ts (Nat.le_of_eq h)]
    simp only [Sys.exec, Sys.step, ThreadLibrary.createThread, hfull, if_true, decide_True]
  · simp [createdState, h128]
  · show tableKeys (freshTable ((idsUpTo ts.length).zip ts)) = idsUpTo 128
    rw [freshTable_keys, zip_ids_fst, h128]
  · simp [createdState, h128]
  · simp [createdState, h128, idsUpTo_length]

theorem capacity_boundary_witness :
    (List.replicate 128 Task.returns).length = MAX_THREADS ∧
    (MAX_THREADS = 128 ∧
    ∃ s, Sys.init.exec ((List.replicate 128 Task.returns).map Event.createThread
        ++ [Event.createThread Task.returns]) = .ok s ∧
      s.calls = (idsUpTo 128).map (fun i => { full := false, ret := i })
        ++ [{ full := true, ret := -1 }] ∧
      s.lib.threads.length = 128 ∧
      tableKeys s.lib.threads = idsUpTo 128 ∧
      s.lib.readyQueue = idsUpTo 128 ∧
      s.lib.readyQueue.length = 128) :=
  ⟨by simp [MAX_THREADS], capacity_boundary _ _ (by simp [MAX_THREADS])⟩

/-! ## A run in which every task ends during its own admission -/

theorem tableUpdate_of_not_mem (t : Table) (k : Int) (f : Thread → Thread)
    (h : k ∉ tableKeys t) : tableUpdate t k f = t := by
  induction t with
  | nil => rfl
  | cons e r ih =>
    simp only [tableKeys, List.map_cons, List.mem_cons, not_or] at h
    have h1 : e.1 ≠ k := fun hh => h.1 hh.symm
    have h2 : tableUpdate r k f = r := ih h.2
    simp only [tableUpdate, List.map_cons, h1, if_false] at h2 ⊢
    rw [h2]

theorem tableErase_of_not_mem (t : Table) (k : Int) (h : k ∉ tableKeys t) :
    tableErase t k = t := by
  induction t with
  | nil => rfl
  | cons e r ih =>
    simp only [tableKeys, List.map_cons, List.mem_cons, not_or] at h
    have h1 : e.1 ≠ k := fun hh => h.1 hh.symm
    have h2 : tableErase r k = r := ih h.2
    simp only [tableErase] at h2 ⊢
    rw [List.filter_cons_of_pos (by simpa using h1), h2]

theorem tableFind_cons_self (k : Int) (v : Thread) (t : Table) :
    tableFind ((k, v) :: t) k = some v := by
  simp [tableFind]

theorem tableUpdate_cons_self (k : Int) (v : Thread) (t : Table) (f : Thread → Thread) :
    tableUpdate ((k, v) :: t) k f = (k, f v) :: tableUpdate t k f := by
  simp [tableUpdate]

theorem tableErase_cons_self (k : Int) (v : Thread) (t : Table) :
    tableErase ((k, v) :: t) k = tableErase t k := by
  simp [tableErase]

theorem exec_admitAndEnd (c cur : Int) (i : Int) (T : Table) (Q : List Int)
    (calls : List CreateCall) (adm : List Int) (h : i ∉ tableKeys T) :
    Sys.exec
      { lib := { threadIdCounter := c, threads := (i, newTCB i Task.returns) :: T,
                 readyQueue := i :: Q, currentThreadId := cur },
        pc := .loop, calls := calls, admitted := adm }
      (admitAndEnd i)
    = .ok
      { lib := { threadIdCounter := c, threads := T, readyQueue := Q, currentThreadId := i },
        pc := .loop, calls := calls, admitted := adm ++ [i] } := by
  simp [admitAndEnd, Sys.exec, Sys.step, Sys.startStep, tableFind_cons_self,
    tableUpdate_cons_self, tableErase_cons_self, tableUpdate_of_not_mem _ _ _ h,
    tableErase_of_not_mem _ _ h, newTCB, ThreadLibrary.threadWrapper,
    ThreadLibrary.exitThread]

theorem exec_admitAll (ps : List (Int × Task)) (hnd : (ps.map Prod.fst).Nodup)
    (hret : ∀ p ∈ ps, p.2 = Task.returns) (c cur : Int) (calls : List CreateCall)
    (adm : List Int) :
    ∃ cur1, Sys.exec
      { lib := { threadIdCounter := c, threads := freshTable ps,
                 readyQueue := ps.map Prod.fst, currentThreadId := cur },
        pc := .loop, calls := calls, admitted := adm }
      (admitAll (ps.map Prod.fst))
    = .ok
      { lib := { threadIdCounter := c, threads := [], readyQueue := [],
                 currentThreadId := cur1 },
        pc := .loop, calls := calls, admitted := adm ++ ps.map Prod.fst } := by
  induction ps generalizing cur adm with
  | nil => exact ⟨cur, by simp [admitAll, freshTable, Sys.exec]⟩
  | cons p r ih =>
    obtain ⟨i, t⟩ := p
    have ht : t = Task.returns := hret (i, t) (List.mem_cons_self _ _)
    subst ht
    simp only [List.map_cons, List.nodup_cons] at hnd
    have hfresh : i ∉ tableKeys (freshTable r) := by
      rw [freshTable_keys]
      exact hnd.1
    obtain ⟨cur1, h1⟩ := ih hnd.2 (fun p hp => hret p (List.mem_cons_of_mem _ hp)) i (adm ++ [i])
    refine ⟨cur1, ?_⟩
    have hT : freshTable ((i, Task.returns) :: r) = (i, newTCB i Task.returns) :: freshTable r := rfl
    simp only [List.map_cons, admitAll, exec_append, hT,
      exec_admitAndEnd c cur i (freshTable r) (r.map Prod.fst) calls adm hfresh]
    rw [h1]
    simp

theorem idsUpTo_nodup (n : Nat) : (idsUpTo n).Nodup :=
  (idsUpTo_pairwise n).imp (fun hab => ne_of_lt hab)

theorem exec_serialRun (n : Nat) (h : n ≤ MAX_THREADS) :
    ∃ cur1, Sys.init.exec (serialRun n) = .ok
      { lib := { threadIdCounter := n, threads := [], readyQueue := [],
                 currentThreadId := cur1 },
        pc := .idle,
        calls := (idsUpTo n).map (fun i => { full := false, ret := i }),
        admitted := idsUpTo n } := by
  have hlen : (List.replicate n Task.returns).length = n := List.length_replicate _ _
  have hz := zip_ids_fst (List.replicate n Task.returns)
  rw [hlen] at hz
  obtain ⟨cur1, h1⟩ := exec_admitAll ((idsUpTo n).zip (List.replicate n Task.returns))
    (by rw [hz]; exact idsUpTo_nodup n)
    (by
      intro p hp
      have := (List.of_mem_zip hp).2
      exact List.eq_of_mem_replicate this)
    n (-1) ((idsUpTo n).map (fun i => { full := false, ret := i })) []
  refine ⟨cur1, ?_⟩
  rw [hz] at h1
  unfold serialRun
  rw [exec_append, exec_creates _ (by rw [hlen]; exact h)]
  simp only [createdState, hlen, Sys.exec, Sys.step, exec_append, h1]
  simp [Sys.startStep]

/-! ## Order of admission -/

theorem serialInv_startStep (s s1 : Sys) (hinv : SerialInv s) (h : s.startStep = .ok s1) :
    SerialInv s1 := by
  obtain ⟨⟨c, T, Q, cur⟩, pc, calls, adm⟩ := s
  obtain ⟨ps, hnd, hq, hpc⟩ := hinv
  simp only at hq hpc
  cases pc with
  | idle => simp [Sys.startStep] at h
  | loop =>
    simp only at hpc
    subst hq hpc
    cases ps with
    | nil =>
      simp only [Sys.startStep, List.map_nil] at h
      cases h
      exact ⟨[], by simp, rfl, rfl, rfl⟩
    | cons p r =>
      simp only [Sys.startStep, List.map_cons] at h
      cases h
      simp only [List.map_cons, List.nodup_cons] at hnd
      exact ⟨r, hnd.2, rfl, hnd.1, p.2, rfl⟩
  | lookup =>
    obtain ⟨hfresh, t, hT⟩ := hpc
    subst hT
    simp only [Sys.startStep, tableFind_cons_self, newTCB] at h
    simp only [if_neg (show ThreadState.READY ≠ ThreadState.TERMINATED by decide)] at h
    cases h
    exact ⟨ps, hnd, hq, hfresh, t, rfl⟩
  | setRunning =>
    obtain ⟨hfresh, t, hT⟩ := hpc
    subst hT
    have hk : cur ∉ tableKeys (freshTable ps) := by
      rw [freshTable_keys]
      exact hfresh
    simp only [Sys.startStep, tableUpdate_cons_self, tableUpdate_of_not_mem _ _ _ hk, newTCB] at h
    cases h
    exact ⟨ps, hnd, hq, hfresh, t, Or.inl rfl⟩
  | join =>
    obtain ⟨hfresh, t, hT⟩ := hpc
    have hk : cur ∉ tableKeys (freshTable ps) := by
      rw [freshTable_keys]
      exact hfresh
    rcases hT with hT | hT
    · subst hT
      simp [Sys.startStep, tableFind_cons_self] at h
    · subst hT
      simp only [Sys.startStep, tableFind_cons_self, tableUpdate_cons_self,
        tableUpdate_of_not_mem _ _ _ hk] at h
      cases h
      exact ⟨ps, hnd, hq, hfresh, t, rfl⟩
  | reap =>
    obtain ⟨hfresh, t, hT⟩ := hpc
    subst hT
    have hk : cur ∉ tableKeys (freshTable ps) := by
      rw [freshTable_keys]
      exact hfresh
    simp only [Sys.startStep, tableFind_cons_self, if_true, tableErase_cons_self,
      tableErase_of_not_mem _ _ hk] at h
    cases h
    exact ⟨ps, hnd, hq, rfl⟩

theorem serialInv_taskEnds (s s1 : Sys) (i : Int) (hinv : SerialInv s)
    (ht : timed s (.taskEnds i) = true) (h : s.step (.taskEnds i) = .ok s1) :
    SerialInv s1 := by
  obtain ⟨⟨c, T, Q, cur⟩, pc, calls, adm⟩ := s
  obtain ⟨ps, hnd, hq, hpc⟩ := hinv
  simp only [timed, decide_eq_true_eq] at ht
  obtain ⟨ht1, ht2⟩ := ht
  simp only at ht1 ht2 hq hpc
  subst ht1 ht2
  obtain ⟨hfresh, t, hT⟩ := hpc
  have hk : cur ∉ tableKeys (freshTable ps) := by
    rw [freshTable_keys]
    exact hfresh
  rcases hT with hT | hT
  · subst hT
    cases t with
    | throws => simp [Sys.step, tableFind_cons_self, ThreadLibrary.threadWrapper] at h
    | returns =>
      simp only [Sys.step, tableFind_cons_self, ThreadLibrary.threadWrapper,
        ThreadLibrary.exitThread, if_true, tableUpdate_cons_self,
        tableUpdate_of_not_mem _ _ _ hk] at h
      cases h
      exact ⟨ps, hnd, hq, hfresh, Task.returns, Or.inr rfl⟩
  · subst hT
    simp [Sys.step, tableFind_cons_self] at h

theorem serialInv_exec (tr : List Event) (s s1 : Sys) (hinv : SerialInv s)
    (ht : wellTimed s tr = true) (h : s.exec tr = .ok s1) : SerialInv s1 := by
  induction tr generalizing s with
  | nil =>
    simp only [Sys.exec] at h
    cases h
    exact hinv
  | cons e r ih =>
    simp only [Sys.exec] at h
    simp only [wellTimed, Bool.and_eq_true] at ht
    cases hstep : s.step e with
    | error err => rw [hstep] at h; cases h
    | ok s2 =>
      rw [hstep] at h
      rw [hstep] at ht
      refine ih s2 ?_ ht.2 h
      cases e with
      | startStep => exact serialInv_startStep s s2 hinv hstep
      | taskEnds i => exact serialInv_taskEnds s s2 i hinv ht.1 hstep
      | createThread task => simp [timed] at ht
      | exitThread => simp [timed] at ht
      | startCall => simp [timed] at ht

theorem wellTimed_append (s : Sys) (a b : List Event) :
    wellTimed s (a ++ b) = (wellTimed s a &&
      match s.exec a with
      | .ok s1 => wellTimed s1 b
      | .error _ => true) := by
  induction a generalizing s with
  | nil => simp [wellTimed, Sys.exec]
  | cons e r ih =>
    simp only [List.cons_append, wellTimed, Sys.exec]
    cases hstep : s.step e with
    | error err => simp
    | ok s2 =>
      have h2 := ih s2
      simp only [Bool.and_assoc]
      show (timed s e && wellTimed s2 (r ++ b)) = _
      rw [h2]

theorem wellTimed_admitAndEnd (c cur : Int) (i : Int) (T : Table) (Q : List Int)
    (calls : List CreateCall) (adm : List Int) (h : i ∉ tableKeys T) :
    wellTimed
      { lib := { threadIdCounter := c, threads := (i, newTCB i Task.returns) :: T,
                 readyQueue := i :: Q, currentThreadId := cur },
        pc := .loop, calls := calls, admitted := adm }
      (admitAndEnd i) = true := by
  simp [admitAndEnd, wellTimed, timed, Sys.step, Sys.startStep, tableFind_cons_self,
    tableUpdate_cons_self, tableErase_cons_self, tableUpdate_of_not_mem _ _ _ h,
    tableErase_of_not_mem _ _ h, newTCB, ThreadLibrary.threadWrapper,
    ThreadLibrary.exitThread]

theorem wellTimed_admitAll (ps : List (Int × Task)) (hnd : (ps.map Prod.fst).Nodup)
    (hret : ∀ p ∈ ps, p.2 = Task.returns) (c cur : Int) (calls : List CreateCall)
    (adm : List Int) :
    wellTimed
      { lib := { threadIdCounter := c, threads := freshTable ps,
                 readyQueue := ps.map Prod.fst, currentThreadId := cur },
        pc := .loop, calls := calls, admitted := adm }
      (admitAll (ps.map Prod.fst)) = true := by
  induction ps generalizing cur adm with
  | nil => rfl
  | cons p r ih =>
    obtain ⟨i, t⟩ := p
    have ht : t = Task.returns := hret (i, t) (List.mem_cons_self _ _)
    subst ht
    simp only [List.map_cons, List.nodup_cons] at hnd
    have hfresh : i ∉ tableKeys (freshTable r) := by
      rw [freshTable_keys]
      exact hnd.1
    have hT : freshTable ((i, Task.returns) :: r) = (i, newTCB i Task.returns) :: freshTable r := rfl
    simp only [List.map_cons, admitAll, wellTimed_append, hT,
      wellTimed_admitAndEnd c cur i (freshTable r) (r.map Prod.fst) calls adm hfresh,
      exec_admitAndEnd c cur i (freshTable r) (r.map Prod.fst) calls adm hfresh, Bool.true_and]
    exact ih hnd.2 (fun p hp => hret p (List.mem_cons_of_mem _ hp)) i (adm ++ [i])

theorem serialInv_loop (ts : List Task) :
    SerialInv { createdState ts with pc := Pc.loop } := by
  refine ⟨(idsUpTo ts.length).zip ts, ?_, ?_, rfl⟩
  · rw [zip_ids_fst]
    exact idsUpTo_nodup _
  · rw [zip_ids_fst]
    rfl

/-- C2, counterexample: two tasks are created and `start()` is called; the
task of unit 1 ends (and its wrapper calls `exitThread`) while `start()` waits
at the join of unit 0, then the task of unit 0 ends.  Both wrappers called
`exitThread` once, after creation and before their join returned, yet when
`start()` returns the table still holds the control block of unit 1, in state
`RUNNING`. -/
theorem start_leaves_entry_on_early_exit :
    Sys.init.exec
      [Event.createThread Task.returns, Event.createThread Task.returns, Event.startCall,
        Event.startStep, Event.startStep, Event.startStep,
        Event.taskEnds 1, Event.taskEnds 0,
        Event.startStep, Event.startStep,
        Event.startStep, Event.startStep, Event.startStep, Event.startStep, Event.startStep,
        Event.startStep]
      = .ok
        { lib :=
            { threadIdCounter := 2
              threads := [(1, { id := 1, state := ThreadState.RUNNING,
                                threadObj := ThreadObj.joined, task := Task.returns })]
              readyQueue := []
              currentThreadId := 1 }
          pc := Pc.idle
          calls := [{ full := false, ret := 0 }, { full := false, ret := 1 }]
          admitted := [0, 1] } := by
  rfl

/-- C2 (amended): for every N <= 128, after N successful calls of
`createThread` on a fresh library followed by `start()`, for every schedule in
which each task ends (its wrapper calling `exitThread`) while `start()` waits at
the join of that task, that is after line 77 of its own admission and before
its `join()` returns, the thread table and the ready queue are empty when
`start()` returns, and a second call of `start()` returns at its first loop
test leaving the library state unchanged; with returning tasks such a schedule
exists and `start()` does return under it. -/
theorem start_reaps_all_when_tasks_end_admitted (ts : List Task)
    (hlen : ts.length ≤ MAX_THREADS) :
    (∀ tr s, wellTimed { createdState ts with pc := Pc.loop } tr = true →
      Sys.init.exec (ts.map Event.createThread ++ Event.startCall :: tr) = .ok s →
      s.pc = Pc.idle →
        s.lib.threads = [] ∧ s.lib.readyQueue = [] ∧
        ∃ s2, s.exec [Event.startCall, Event.startStep] = .ok s2 ∧ s2.pc = Pc.idle ∧
          s2.lib = s.lib) ∧
    ((∀ t ∈ ts, t = Task.returns) →
      ∃ tr s, wellTimed { createdState ts with pc := Pc.loop } tr = true ∧
        Sys.init.exec (ts.map Event.createThread ++ Event.startCall :: tr) = .ok s ∧
        s.pc = Pc.idle) := by
  have hc := exec_creates ts hlen
  constructor
  · intro tr s hwt h hpc
    rw [exec_append, hc] at h
    have h2 : Sys.exec { createdState ts with pc := Pc.loop } tr = .ok s := h
    obtain ⟨ps, _, hq, hshape⟩ := serialInv_exec tr _ s (serialInv_loop ts) hwt h2
    rw [hpc] at hshape
    obtain ⟨hps, hT⟩ := hshape
    subst hps
    have hq2 : s.lib.readyQueue = [] := hq
    refine ⟨hT, hq2, s, ?_, hpc, rfl⟩
    simp only [Sys.exec, Sys.step, hpc, Sys.startStep, hq2]
    obtain ⟨lib, pc, calls, adm⟩ := s
    simp only at hpc
    subst hpc
    rfl
  · intro hret
    have hts : ts = List.replicate ts.length Task.returns :=
      List.eq_replicate_iff.mpr ⟨rfl, hret⟩
    obtain ⟨cur1, h1⟩ := exec_serialRun ts.length hlen
    unfold serialRun at h1
    rw [← hts] at h1
    refine ⟨admitAll (idsUpTo ts.length) ++ [Event.startStep], _, ?_, h1, rfl⟩
    have hz := zip_ids_fst ts
    have hnd : (((idsUpTo ts.length).zip ts).map Prod.fst).Nodup := by
      rw [hz]
      exact idsUpTo_nodup _
    have hr : ∀ p ∈ (idsUpTo ts.length).zip ts, p.2 = Task.returns :=
      fun p hp => hret _ (List.of_mem_zip hp).2
    have hw := wellTimed_admitAll _ hnd hr (ts.length : Int) (-1)
      ((idsUpTo ts.length).map (fun i => { full := false, ret := i })) []
    rw [hz] at hw
    rw [wellTimed_append]
    simp only [createdState, Bool.and_eq_true]
    refine ⟨hw, ?_⟩
    cases hex : Sys.exec _ (admitAll (idsUpTo ts.length)) with
    | error err => rfl
    | ok s3 =>
      simp only [wellTimed, timed, Bool.true_and]
      cases s3.step Event.startStep <;> rfl

theorem start_reaps_all_when_tasks_end_admitted_witness :
    [Task.returns, Task.returns, Task.returns].length ≤ MAX_THREADS ∧
    ((∀ tr s, wellTimed { createdState [Task.returns, Task.returns, Task.returns]
          with pc := Pc.loop } tr = true →
      Sys.init.exec ([Task.returns, Task.returns, Task.returns].map Event.createThread
          ++ Event.startCall :: tr) = .ok s →
      s.pc = Pc.idle →
        s.lib.threads = [] ∧ s.lib.readyQueue = [] ∧
        ∃ s2, s.exec [Event.startCall, Event.startStep] = .ok s2 ∧ s2.pc = Pc.idle ∧
          s2.lib = s.lib) ∧
    ((∀ t ∈ [Task.returns, Task.returns, Task.returns], t = Task.returns) →
      ∃ tr s, wellTimed { createdState [Task.returns, Task.returns, Task.returns]
          with pc := Pc.loop } tr = true ∧
        Sys.init.exec ([Task.returns, Task.returns, Task.returns].map Event.createThread
          ++ Event.startCall :: tr) = .ok s ∧
        s.pc = Pc.idle)) :=
  ⟨by decide, start_reaps_all_when_tasks_end_admitted
    [Task.returns, Task.returns, Task.returns] (by decide)⟩

/-! ## The completion hook, the wrapper and the skip of line 73 -/

theorem tableFind_tableUpdate (t : Table) (k j : Int) (f : Thread → Thread) :
    tableFind (tableUpdate t k f) j
      = if j = k then (tableFind t j).map f else tableFind t j := by
  induction t with
  | nil => simp [tableUpdate, tableFind]
  | cons e r ih =>
    have ih2 : tableFind (List.map (fun e => if e.1 = k then (e.1, f e.2) else e) r) j
        = if j = k then (tableFind r j).map f else tableFind r j := ih
    simp only [tableUpdate, List.map_cons, tableFind]
    by_cases hk : e.1 = k
    · by_cases hj : e.1 = j
      · have hjk : j = k := hj.symm.trans hk
        simp [hk, hjk]
      · have hjk : ¬ j = k := fun h => hj (hk.trans h.symm)
        rw [if_pos hk, if_neg hj]
        simp only [hj, if_false]
        rw [ih2]
    · by_cases hj : e.1 = j
      · have hjk : ¬ j = k := fun h => hk (hj.trans h)
        simp [hk, hj, hjk]
      · rw [if_neg hk]
        simp only [hj, if_false]
        exact ih2

theorem tableKeys_tableUpdate (t : Table) (k : Int) (f : Thread → Thread) :
    tableKeys (tableUpdate t k f) = tableKeys t := by
  induction t with
  | nil => rfl
  | cons e r ih =>
    have ih2 : List.map Prod.fst (List.map (fun e => if e.1 = k then (e.1, f e.2) else e) r)
        = List.map Prod.fst r := ih
    by_cases hk : e.1 = k
    · simp only [tableKeys, tableUpdate, List.map_cons, hk, if_true, ih2]
    · simp only [tableKeys, tableUpdate, List.map_cons, hk, if_false, ih2]

/-- C8, counterexample: units 0 and 1 are created, `start()` admits unit 0
(lines 68-77, so `currentThreadId` is 0), and then the wrapper of unit 1 invokes
`exitThread`: the control block of unit 0 becomes `TERMINATED`, the one of the
caller, unit 1, stays `READY`. -/
theorem exitThread_marks_other_unit :
    Sys.init.exec
      [Event.createThread Task.returns, Event.createThread Task.returns, Event.startCall,
        Event.startStep, Event.startStep, Event.startStep, Event.taskEnds 1]
      = .ok
        { lib :=
            { threadIdCounter := 2
              threads :=
                [(0, { id := 0, state := ThreadState.TERMINATED,
                       threadObj := ThreadObj.running, task := Task.returns }),
                 (1, { id := 1, state := ThreadState.READY,
                       threadObj := ThreadObj.finished, task := Task.returns })]
              readyQueue := [1]
              currentThreadId := 0 }
          pc := Pc.join
          calls := [{ full := false, ret := 0 }, { full := false, ret := 1 }]
          admitted := [0] } := by
  rfl

/-- C8 (amended): the completion hook marks the control block of the ambient
current id.  Whenever `exitThread` is invoked (by the wrapper of any task) while
`currentThreadId` is a key of the table, the state of that control block
becomes `TERMINATED` and nothing else changes: its other fields, every other
control block, the keys of the table, the ready queue, the id counter and
`currentThreadId` are as before. -/
theorem exitThread_marks_current (s : ThreadLibrary) (th : Thread)
    (h : tableFind s.threads s.currentThreadId = some th) :
    ThreadLibrary.threadWrapper Task.returns s = s.exitThread ∧
    ∃ s1, s.exitThread = .ok s1 ∧
      tableFind s1.threads s.currentThreadId = some { th with state := ThreadState.TERMINATED } ∧
      (∀ k, k ≠ s.currentThreadId → tableFind s1.threads k = tableFind s.threads k) ∧
      tableKeys s1.threads = tableKeys s.threads ∧
      s1.readyQueue = s.readyQueue ∧
      s1.threadIdCounter = s.threadIdCounter ∧
      s1.currentThreadId = s.currentThreadId := by
  refine ⟨rfl, { s with
      threads := tableUpdate s.threads s.currentThreadId
        (fun th => { th with state := ThreadState.TERMINATED }) },
    by simp only [ThreadLibrary.exitThread, h], ?_, ?_, ?_, rfl, rfl, rfl⟩
  · simp [tableFind_tableUpdate, h]
  · intro k hk
    simp [tableFind_tableUpdate, hk]
  · simp only [tableKeys_tableUpdate]

theorem exitThread_marks_current_witness :
    tableFind (createdState [Task.returns]).lib.threads 0 = some (newTCB 0 Task.returns) ∧
    (ThreadLibrary.threadWrapper Task.returns
        { (createdState [Task.returns]).lib with currentThreadId := 0 }
      = ThreadLibrary.exitThread { (createdState [Task.returns]).lib with currentThreadId := 0 } ∧
    ∃ s1, ThreadLibrary.exitThread { (createdState [Task.returns]).lib with currentThreadId := 0 }
        = .ok s1 ∧
      tableFind s1.threads 0
        = some { newTCB 0 Task.returns with state := ThreadState.TERMINATED } ∧
      (∀ k, k ≠ 0 → tableFind s1.threads k
        = tableFind (createdState [Task.returns]).lib.threads k) ∧
      tableKeys s1.threads = tableKeys (createdState [Task.returns]).lib.threads ∧
      s1.readyQueue = (createdState [Task.returns]).lib.readyQueue ∧
      s1.threadIdCounter = (createdState [Task.returns]).lib.threadIdCounter ∧
      s1.currentThreadId = 0) :=
  ⟨rfl, exitThread_marks_current
    { (createdState [Task.returns]).lib with currentThreadId := 0 } (newTCB 0 Task.returns) rfl⟩

/-- C6, counterexample: a task that throws is created and admitted (its control
block is `RUNNING`); when its callable throws, the wrapper does not reach
`exitThread`: no transition to a state with the block `TERMINATED` exists, the
exception leaves the thread function. -/
theorem throwing_task_skips_hook :
    Sys.init.exec
      [Event.createThread Task.throws, Event.startCall,
        Event.startStep, Event.startStep, Event.startStep]
      = .ok
        { lib :=
            { threadIdCounter := 1
              threads := [(0, { id := 0, state := ThreadState.RUNNING,
                                threadObj := ThreadObj.running, task := Task.throws })]
              readyQueue := []
              currentThreadId := 0 }
          pc := Pc.join
          calls := [{ full := false, ret := 0 }]
          admitted := [0] } ∧
    Sys.init.exec
      [Event.createThread Task.throws, Event.startCall,
        Event.startStep, Event.startStep, Event.startStep, Event.taskEnds 0]
      = .error Err.terminate := by
  exact ⟨rfl, rfl⟩

/-- C6 (amended): for a unit whose task has not ended yet, a callable that
returns normally while the unit is the current one is followed by the
completion hook, which sets its control block to `TERMINATED`; a callable that
throws is not followed by the hook: the wrapper has no handler, the exception
leaves the thread function (`std::terminate`) with the library state, and so
the state of the control block, as it was. -/
theorem wrapper_reaches_hook_only_on_return (s : Sys) (i : Int) (th : Thread)
    (h : tableFind s.lib.threads i = some th) (hrun : th.threadObj = ThreadObj.running) :
    (th.task = Task.throws →
      ThreadLibrary.threadWrapper th.task s.lib = .error Err.terminate ∧
      s.step (Event.taskEnds i) = .error Err.terminate) ∧
    (th.task = Task.returns → s.lib.currentThreadId = i →
      ∃ s1, s.step (Event.taskEnds i) = .ok s1 ∧
        stateOf s1.lib.threads i = some ThreadState.TERMINATED) := by
  constructor
  · intro ht
    simp [Sys.step, h, hrun, ht, ThreadLibrary.threadWrapper]
  · intro ht hcur
    have h2 : tableFind s.lib.threads s.lib.currentThreadId = some th := by
      rw [hcur]
      exact h
    have hstep : s.step (Event.taskEnds i) = .ok
        { s with
          lib := { s.lib with
            threads := tableUpdate
              (tableUpdate s.lib.threads s.lib.currentThreadId
                (fun th => { th with state := ThreadState.TERMINATED }))
              i (fun t => { t with threadObj := ThreadObj.finished }) } } := by
      simp only [Sys.step, h, hrun, if_true, ht, ThreadLibrary.threadWrapper,
        ThreadLibrary.exitThread, h2]
    refine ⟨_, hstep, ?_⟩
    simp [stateOf, tableFind_tableUpdate, hcur, h]

theorem wrapper_reaches_hook_only_on_return_witness :
    (tableFind (createdState [Task.throws]).lib.threads 0 = some (newTCB 0 Task.throws) ∧
      (newTCB 0 Task.throws).threadObj = ThreadObj.running) ∧
    (((newTCB 0 Task.throws).task = Task.throws →
      ThreadLibrary.threadWrapper (newTCB 0 Task.throws).task (createdState [Task.throws]).lib
        = .error Err.terminate ∧
      (createdState [Task.throws]).step (Event.taskEnds 0) = .error Err.terminate) ∧
    ((newTCB 0 Task.throws).task = Task.returns →
      (createdState [Task.throws]).lib.currentThreadId = 0 →
      ∃ s1, (createdState [Task.throws]).step (Event.taskEnds 0) = .ok s1 ∧
        stateOf s1.lib.threads 0 = some ThreadState.TERMINATED)) :=
  ⟨⟨rfl, rfl⟩, wrapper_reaches_hook_only_on_return (createdState [Task.throws]) 0
    (newTCB 0 Task.throws) rfl rfl⟩

/-- C5, failing schedule: one task is created and `start()` is called; line 73
finds the control block `READY`; the task ends and the `exitThread` of its wrapper
sets the block to `TERMINATED`; then line 77 of `start()`, which holds no lock,
sets the same block to `RUNNING`. -/
theorem terminated_set_back_to_running :
    Sys.init.exec
      [Event.createThread Task.returns, Event.startCall, Event.startStep, Event.startStep,
        Event.taskEnds 0]
      = .ok
        { lib :=
            { threadIdCounter := 1
              threads := [(0, { id := 0, state := ThreadState.TERMINATED,
                                threadObj := ThreadObj.finished, task := Task.returns })]
              readyQueue := []
              currentThreadId := 0 }
          pc := Pc.setRunning
          calls := [{ full := false, ret := 0 }]
          admitted := [0] } ∧
    Sys.init.exec
      [Event.createThread Task.returns, Event.startCall, Event.startStep, Event.startStep,
        Event.taskEnds 0, Event.startStep]
      = .ok
        { lib :=
            { threadIdCounter := 1
              threads := [(0, { id := 0, state := ThreadState.RUNNING,
                                threadObj := ThreadObj.finished, task := Task.returns })]
              readyQueue := []
              currentThreadId := 0 }
          pc := Pc.join
          calls := [{ full := false, ret := 0 }]
          admitted := [0] } := by
  exact ⟨rfl, rfl⟩

/-! ## Queued ids and the current id have table entries -/

theorem tableFind_tableAssign (t : Table) (k j : Int) (v : Thread) :
    tableFind (tableAssign t k v) j = if j = k then some v else tableFind t j := by
  induction t with
  | nil =>
    by_cases hjk : j = k
    · simp [tableAssign, tableFind, hjk]
    · have hkj : ¬ k = j := fun h => hjk h.symm
      simp [tableAssign, tableFind, hjk, hkj]
  | cons e r ih =>
    by_cases hk : e.1 = k
    · by_cases hjk : j = k
      · simp [tableAssign, tableFind, hk, hjk]
      · have hkj : ¬ k = j := fun h => hjk h.symm
        simp [tableAssign, tableFind, hk, hjk, hkj]
    · by_cases hj : e.1 = j
      · have hjk : ¬ j = k := fun h => hk (hj.trans h)
        simp [tableAssign, tableFind, hk, hj, hjk]
      · simp only [tableAssign, hk, if_false, tableFind, hj]
        exact ih

theorem tableFind_tableErase (t : Table) (k j : Int) :
    tableFind (tableErase t k) j = if j = k then none else tableFind t j := by
  induction t with
  | nil => simp [tableErase, tableFind]
  | cons e r ih =>
    have ih2 : tableFind (List.filter (fun e => decide (e.1 ≠ k)) r) j
        = if j = k then none else tableFind r j := ih
    by_cases hk : e.1 = k
    · have hf : List.filter (fun e => decide (e.1 ≠ k)) (e :: r)
          = List.filter (fun e => decide (e.1 ≠ k)) r :=
        List.filter_cons_of_neg (by simpa using hk)
      simp only [tableErase, hf, ih2, tableFind]
      by_cases hjk : j = k
      · simp [hjk]
      · have hj : ¬ e.1 = j := fun h => hjk (h.symm.trans hk)
        simp [hjk, hj]
    · have hf : List.filter (fun e => decide (e.1 ≠ k)) (e :: r)
          = e :: List.filter (fun e => decide (e.1 ≠ k)) r :=
        List.filter_cons_of_pos (by simpa using hk)
      simp only [tableErase, hf, tableFind, ih2]
      by_cases hj : e.1 = j
      · have hjk : ¬ j = k := fun h => hk (hj.trans h)
        simp [hj, hjk]
      · simp [hj]

theorem isSome_tableFind_tableUpdate (t : Table) (k j : Int) (f : Thread → Thread) :
    (tableFind (tableUpdate t k f) j).isSome = (tableFind t j).isSome := by
  rw [tableFind_tableUpdate]
  split <;> simp

theorem tableInv_init : TableInv Sys.init where
  queue_nodup := List.nodup_nil
  queue_lt := by
    intro i hi
    cases hi
  cur_lt := by decide
  cur_not_queued := by
    intro hi
    cases hi
  queued_present := by
    intro i hi
    cases hi
  cur_present := by
    intro h
    exact absurd rfl h
  present_lt := by
    intro j hj
    cases hj

theorem tableInv_exitThread (s : Sys) (lib1 : ThreadLibrary) (hinv : TableInv s)
    (h : s.lib.exitThread = .ok lib1) : TableInv { s with lib := lib1 } := by
  unfold ThreadLibrary.exitThread at h
  split at h
  · cases h
  · cases h
    exact
      { queue_nodup := hinv.queue_nodup
        queue_lt := hinv.queue_lt
        cur_lt := hinv.cur_lt
        cur_not_queued := hinv.cur_not_queued
        queued_present := by
          intro i hi
          simpa only [isSome_tableFind_tableUpdate] using hinv.queued_present i hi
        cur_present := by
          intro h1 h2
          simpa only [isSome_tableFind_tableUpdate] using hinv.cur_present h1 h2
        present_lt := by
          intro j hj
          exact hinv.present_lt j (by simpa only [isSome_tableFind_tableUpdate] using hj) }

theorem tableInv_update (s : Sys) (k : Int) (f : Thread → Thread) (hinv : TableInv s) :
    TableInv { s with lib := { s.lib with threads := tableUpdate s.lib.threads k f } } where
  queue_nodup := hinv.queue_nodup
  queue_lt := hinv.queue_lt
  cur_lt := hinv.cur_lt
  cur_not_queued := hinv.cur_not_queued
  queued_present := by
    intro i hi
    simpa only [isSome_tableFind_tableUpdate] using hinv.queued_present i hi
  cur_present := by
    intro h1 h2
    simpa only [isSome_tableFind_tableUpdate] using hinv.cur_present h1 h2
  present_lt := by
    intro j hj
    exact hinv.present_lt j (by simpa only [isSome_tableFind_tableUpdate] using hj)

theorem tableInv_pc (s : Sys) (p : Pc) (hinv : TableInv s)
    (hp : p ≠ Pc.idle → p ≠ Pc.loop →
      (tableFind s.lib.threads s.lib.currentThreadId).isSome = true) :
    TableInv { s with pc := p } where
  queue_nodup := hinv.queue_nodup
  queue_lt := hinv.queue_lt
  cur_lt := hinv.cur_lt
  cur_not_queued := hinv.cur_not_queued
  queued_present := hinv.queued_present
  cur_present := hp
  present_lt := hinv.present_lt

theorem tableInv_startStep (s s1 : Sys) (hinv : TableInv s) (h : s.startStep = .ok s1) :
    TableInv s1 := by
  unfold Sys.startStep at h
  split at h
  · cases h
  · split at h
    · cases h
      exact tableInv_pc s Pc.idle hinv (fun h1 => absurd rfl h1)
    · rename_i i q hq
      cases h
      have hnd := hinv.queue_nodup
      rw [hq, List.nodup_cons] at hnd
      exact
        { queue_nodup := hnd.2
          queue_lt := fun j hj => hinv.queue_lt j (by rw [hq]; exact List.mem_cons_of_mem _ hj)
          cur_lt := hinv.queue_lt i (by rw [hq]; exact List.mem_cons_self _ _)
          cur_not_queued := hnd.1
          queued_present := fun j hj =>
            hinv.queued_present j (by rw [hq]; exact List.mem_cons_of_mem _ hj)
          cur_present := fun _ _ =>
            hinv.queued_present i (by rw [hq]; exact List.mem_cons_self _ _)
          present_lt := hinv.present_lt }
  · split at h
    · cases h
    · rename_i th hth
      have hp : (tableFind s.lib.threads s.lib.currentThreadId).isSome = true := by
        rw [hth]
        rfl
      split at h
      · cases h
        exact tableInv_pc s Pc.loop hinv (fun _ h2 => absurd rfl h2)
      · cases h
        exact tableInv_pc s Pc.setRunning hinv (fun _ _ => hp)
  · rename_i hpc
    cases h
    have hp := hinv.cur_present (by rw [hpc]; decide) (by rw [hpc]; decide)
    have h1 := tableInv_update s s.lib.currentThreadId
      (fun th => { th with state := ThreadState.RUNNING }) hinv
    exact tableInv_pc _ Pc.join h1 (fun _ _ => by
      simpa only [isSome_tableFind_tableUpdate] using hp)
  · rename_i hpc
    have hp := hinv.cur_present (by rw [hpc]; decide) (by rw [hpc]; decide)
    split at h
    · cases h
    · split at h
      · cases h
      · cases h
        have h1 := tableInv_update s s.lib.currentThreadId
          (fun t => { t with threadObj := ThreadObj.joined }) hinv
        exact tableInv_pc _ Pc.reap h1 (fun _ _ => by
          simpa only [isSome_tableFind_tableUpdate] using hp)
      · cases h
        exact tableInv_pc s Pc.reap hinv (fun _ _ => hp)
  · split at h
    · cases h
    · split at h
      · cases h
        exact
          { queue_nodup := hinv.queue_nodup
            queue_lt := hinv.queue_lt
            cur_lt := hinv.cur_lt
            cur_not_queued := hinv.cur_not_queued
            queued_present := by
              intro i hi
              have hne : i ≠ s.lib.currentThreadId :=
                fun he => hinv.cur_not_queued (by rw [← he]; exact hi)
              simpa only [tableFind_tableErase, if_neg hne] using hinv.queued_present i hi
            cur_present := fun _ h2 => absurd rfl h2
            present_lt := by
              intro j hj
              simp only [tableFind_tableErase] at hj
              split at hj
              · cases hj
              · exact hinv.present_lt j hj }
      · cases h
        exact tableInv_pc s Pc.loop hinv (fun _ h2 => absurd rfl h2)

theorem tableInv_step (s s1 : Sys) (e : Event) (hinv : TableInv s)
    (h : s.step e = .ok s1) : TableInv s1 := by
  cases e with
  | createThread task =>
    simp only [Sys.step, ThreadLibrary.createThread] at h
    by_cases hfull : MAX_THREADS ≤ s.lib.threads.length
    · simp only [hfull, if_true, decide_True] at h
      cases h
      exact ⟨hinv.queue_nodup, hinv.queue_lt, hinv.cur_lt, hinv.cur_not_queued,
        hinv.queued_present, hinv.cur_present, hinv.present_lt⟩
    · by_cases hov : INT_MAX ≤ s.lib.threadIdCounter
      · simp [hfull, hov] at h
      · simp only [hfull, hov, if_false, decide_False] at h
        cases h
        have hfreshq : s.lib.threadIdCounter ∉ s.lib.readyQueue :=
          fun hm => lt_irrefl _ (hinv.queue_lt _ hm)
        exact
          { queue_nodup := by
              show (s.lib.readyQueue ++ [s.lib.threadIdCounter]).Nodup
              rw [List.nodup_append]
              refine ⟨hinv.queue_nodup, List.nodup_singleton _, ?_⟩
              intro a ha hb
              rw [List.mem_singleton] at hb
              exact hfreshq (hb ▸ ha)
            queue_lt := by
              intro i hi
              show i < s.lib.threadIdCounter + 1
              rcases List.mem_append.mp hi with hi | hi
              · have := hinv.queue_lt i hi
                omega
              · rw [List.mem_singleton] at hi
                omega
            cur_lt := by
              show s.lib.currentThreadId < s.lib.threadIdCounter + 1
              have := hinv.cur_lt
              omega
            cur_not_queued := by
              show s.lib.currentThreadId ∉ s.lib.readyQueue ++ [s.lib.threadIdCounter]
              intro hm
              rcases List.mem_append.mp hm with hm | hm
              · exact hinv.cur_not_queued hm
              · rw [List.mem_singleton] at hm
                have := hinv.cur_lt
                omega
            queued_present := by
              intro i hi
              simp only [tableFind_tableAssign]
              split
              · rfl
              · rename_i hne
                rcases List.mem_append.mp hi with hi | hi
                · exact hinv.queued_present i hi
                · rw [List.mem_singleton] at hi
                  exact absurd hi hne
            cur_present := by
              intro h1 h2
              simp only [tableFind_tableAssign]
              split
              · rfl
              · exact hinv.cur_present h1 h2
            present_lt := by
              intro j hj
              show j < s.lib.threadIdCounter + 1
              simp only [tableFind_tableAssign] at hj
              split at hj
              · omega
              · have := hinv.present_lt j hj
                omega }
  | taskEnds i =>
    simp only [Sys.step] at h
    split at h
    · cases h
    · split at h
      · split at h
        · cases h
        · rename_i th _ _ _ lib1 hw
          cases h
          have hx : s.lib.exitThread = .ok lib1 := by
            cases ht : th.task with
            | returns => rw [ht] at hw; exact hw
            | throws => rw [ht] at hw; cases hw
          exact tableInv_update _ i _ (tableInv_exitThread s lib1 hinv hx)
      · cases h
  | exitThread =>
    simp only [Sys.step] at h
    split at h
    · cases h
    · rename_i lib1 hw
      cases h
      exact tableInv_exitThread s lib1 hinv hw
  | startCall =>
    simp only [Sys.step] at h
    split at h
    · cases h
      exact tableInv_pc s Pc.loop hinv (fun _ h2 => absurd rfl h2)
    · cases h
  | startStep => exact tableInv_startStep s s1 hinv h

theorem tableInv_exec (tr : List Event) (s s1 : Sys) (hinv : TableInv s)
    (h : s.exec tr = .ok s1) : TableInv s1 := by
  induction tr generalizing s with
  | nil =>
    simp only [Sys.exec] at h
    cases h
    exact hinv
  | cons e r ih =>
    simp only [Sys.exec] at h
    cases hstep : s.step e with
    | error err => rw [hstep] at h; cases h
    | ok s2 =>
      rw [hstep] at h
      exact ih s2 (tableInv_step s s2 e hinv hstep) h

/-- In every execution from a fresh library each queued id has a control block
in the table, and so has the current id while `start()` is between lines 72 and
86: the lookups of `start()` never meet a missing entry. -/
theorem start_lookups_find_entry (tr : List Event) (s : Sys)
    (h : Sys.init.exec tr = .ok s) :
    (∀ i ∈ s.lib.readyQueue, ∃ th, tableFind s.lib.threads i = some th) ∧
      (s.pc ≠ Pc.idle → s.pc ≠ Pc.loop →
        ∃ th, tableFind s.lib.threads s.lib.currentThreadId = some th) := by
  have hinv := tableInv_exec tr Sys.init s tableInv_init h
  exact ⟨fun i hi => Option.isSome_iff_exists.mp (hinv.queued_present i hi),
    fun h1 h2 => Option.isSome_iff_exists.mp (hinv.cur_present h1 h2)⟩

/-- Apart from line 77 of `start()`, no transition of an execution from a fresh
library takes a control block out of `TERMINATED`: after the transition the
block is still `TERMINATED` or has been erased from the table. -/
theorem terminated_kept_except_line77 (tr : List Event) (s s1 : Sys) (e : Event) (k : Int)
    (h : Sys.init.exec tr = .ok s) (hstep : s.step e = .ok s1)
    (hk : stateOf s.lib.threads k = some ThreadState.TERMINATED)
    (hne : ¬ (e = Event.startStep ∧ s.pc = Pc.setRunning ∧ s.lib.currentThreadId = k)) :
    stateOf s1.lib.threads k = some ThreadState.TERMINATED ∨
      tableFind s1.lib.threads k = none := by
  have hinv := tableInv_exec tr Sys.init s tableInv_init h
  have hx : ∀ lib1, s.lib.exitThread = .ok lib1 →
      stateOf lib1.threads k = some ThreadState.TERMINATED := by
    intro lib1 hl
    unfold ThreadLibrary.exitThread at hl
    split at hl
    · cases hl
    · cases hl
      simp only [stateOf, tableFind_tableUpdate] at hk ⊢
      split
      · cases hf : tableFind s.lib.threads k with
        | none => rw [hf] at hk; cases hk
        | some th => rfl
      · exact hk
  cases e with
  | createThread task =>
    simp only [Sys.step, ThreadLibrary.createThread] at hstep
    by_cases hfull : MAX_THREADS ≤ s.lib.threads.length
    · simp only [hfull, if_true, decide_True] at hstep
      cases hstep
      exact Or.inl hk
    · by_cases hov : INT_MAX ≤ s.lib.threadIdCounter
      · simp [hfull, hov] at hstep
      · simp only [hfull, hov, if_false, decide_False] at hstep
        cases hstep
        left
        have hsome : (tableFind s.lib.threads k).isSome = true := by
          cases hf : tableFind s.lib.threads k with
          | none => simp [stateOf, hf] at hk
          | some th => rfl
        have hlt := hinv.present_lt k hsome
        have hkc : k ≠ s.lib.threadIdCounter := by omega
        simp only [stateOf, tableFind_tableAssign, if_neg hkc]
        exact hk
  | taskEnds i =>
    simp only [Sys.step] at hstep
    split at hstep
    · cases hstep
    · split at hstep
      · split at hstep
        · cases hstep
        · rename_i th _ _ _ lib1 hw
          cases hstep
          have hl : s.lib.exitThread = .ok lib1 := by
            cases ht : th.task with
            | returns => rw [ht] at hw; exact hw
            | throws => rw [ht] at hw; cases hw
          have h1 := hx lib1 hl
          left
          simp only [stateOf, tableFind_tableUpdate] at h1 ⊢
          split
          · cases hf : tableFind lib1.threads k with
            | none => rw [hf] at h1; cases h1
            | some th1 =>
              rw [hf] at h1
              simpa using h1
          · exact h1
      · cases hstep
  | exitThread =>
    simp only [Sys.step] at hstep
    split at hstep
    · cases hstep
    · rename_i lib1 hw
      cases hstep
      exact Or.inl (hx lib1 hw)
  | startCall =>
    simp only [Sys.step] at hstep
    split at hstep
    · cases hstep
      exact Or.inl hk
    · cases hstep
  | startStep =>
    simp only [Sys.step] at hstep
    unfold Sys.startStep at hstep
    split at hstep
    · cases hstep
    · split at hstep <;> (cases hstep; exact Or.inl hk)
    · split at hstep
      · cases hstep
      · split at hstep <;> (cases hstep; exact Or.inl hk)
    · rename_i hpc
      cases hstep
      have hck : s.lib.currentThreadId ≠ k := fun hc => hne ⟨rfl, hpc, hc⟩
      left
      simp only [stateOf, tableFind_tableUpdate, if_neg (Ne.symm hck)]
      exact hk
    · split at hstep
      · cases hstep
      · split at hstep
        · cases hstep
        · cases hstep
          left
          simp only [stateOf, tableFind_tableUpdate] at hk ⊢
          split
          · cases hf : tableFind s.lib.threads k with
            | none => rw [hf] at hk; cases hk
            | some th1 =>
              rw [hf] at hk
              simpa using hk
          · exact hk
        · cases hstep
          exact Or.inl hk
    · split at hstep
      · cases hstep
      · split at hstep
        · cases hstep
          by_cases hck : k = s.lib.currentThreadId
          · right
            simp only [tableFind_tableErase, if_pos hck]
          · left
            simp only [stateOf, tableFind_tableErase, if_neg hck]
            exact hk
        · cases hstep
          exact Or.inl hk

/-! ## Mutex -/

theorem mutex_step_inv (s s1 : MutexSys) (e : MutexEvent)
    (hinv : s.inside.length ≤ 1 ∧ (s.mutex.locked = false → s.inside = []))
    (h : s.step e = some s1) :
    s1.inside.length ≤ 1 ∧ (s1.mutex.locked = false → s1.inside = []) := by
  obtain ⟨hlen, hfree⟩ := hinv
  cases e with
  | lockReturns c =>
    simp only [MutexSys.step, Mutex.lock] at h
    cases hl : s.mutex.locked with
    | true => simp [hl] at h
    | false =>
      simp only [hl] at h
      cases h
      refine ⟨?_, ?_⟩
      · simp [hfree hl]
      · intro hcontra
        cases hcontra
  | unlockCalled c =>
    simp only [MutexSys.step] at h
    split at h
    · rename_i hc
      cases h
      have hle : (s.inside.erase c).length = 0 := by
        rw [List.length_erase_of_mem hc]
        omega
      exact ⟨by simp only [hle]; omega, fun _ => List.length_eq_zero.mp hle⟩
    · cases h

/-- C9: two critical sections guarded by the same `Mutex` never overlap.  In
every interleaving of contexts that call `unlock()` only after a `lock()` of
their own has returned, `lock()` and `unlock()` being atomic steps on the flag
and `lock()` returning only from a state in which the flag is false, at most
one context is between the return of its `lock()` and its call of `unlock()`,
and whenever one is, the flag is set. -/
theorem mutex_mutual_exclusion (tr : List MutexEvent) (s : MutexSys)
    (h : MutexSys.init.exec tr = some s) :
    s.inside.length ≤ 1 ∧ (s.inside ≠ [] → s.mutex.locked = true) ∧
      (∀ c, s.mutex.locked = true → s.step (MutexEvent.lockReturns c) = none) := by
  have key : ∀ (tr : List MutexEvent) (s0 s1 : MutexSys),
      (s0.inside.length ≤ 1 ∧ (s0.mutex.locked = false → s0.inside = [])) →
      s0.exec tr = some s1 →
      (s1.inside.length ≤ 1 ∧ (s1.mutex.locked = false → s1.inside = [])) := by
    intro tr
    induction tr with
    | nil =>
      intro s0 s1 hinv h0
      simp only [MutexSys.exec] at h0
      cases h0
      exact hinv
    | cons e r ih =>
      intro s0 s1 hinv h0
      simp only [MutexSys.exec] at h0
      cases hstep : s0.step e with
      | none => rw [hstep] at h0; cases h0
      | some s2 =>
        rw [hstep] at h0
        exact ih s2 s1 (mutex_step_inv s0 s2 e hinv hstep) h0
  obtain ⟨h1, h2⟩ := key tr MutexSys.init s ⟨by decide, fun _ => rfl⟩ h
  refine ⟨h1, ?_, ?_⟩
  · intro hne
    cases hl : s.mutex.locked with
    | true => rfl
    | false => exact absurd (h2 hl) hne
  · intro c hl
    simp [MutexSys.step, Mutex.lock, hl]

theorem mutex_mutual_exclusion_witness :
    MutexSys.init.exec [MutexEvent.lockReturns 1, MutexEvent.unlockCalled 1,
        MutexEvent.lockReturns 2]
      = some { mutex := { locked := true }, inside := [2] } ∧
    ((MutexSys.mk { locked := true } [2]).inside.length ≤ 1 ∧
      ((MutexSys.mk { locked := true } [2]).inside ≠ [] →
        (MutexSys.mk { locked := true } [2]).mutex.locked = true) ∧
      (∀ c, (MutexSys.mk { locked := true } [2]).mutex.locked = true →
        (MutexSys.mk { locked := true } [2]).step (MutexEvent.lockReturns c) = none)) :=
  ⟨rfl, mutex_mutual_exclusion
    [MutexEvent.lockReturns 1, MutexEvent.unlockCalled 1, MutexEvent.lockReturns 2]
    (MutexSys.mk { locked := true } [2]) rfl⟩

end UserThread
